import Mathlib

/-!
Verification development for the secureconfig encrypted key-value store.

The Go source is shallowly embedded: Go byte slices and strings become
`List Nat` (each element a byte value), the in-memory `map[string]string`
database becomes an association list in insertion order (one admissible
iteration order of a Go map), and every fallible operation returns
`Except`.  The AES-GCM primitive from Go's standard library is external
to the repository; it is modelled executably below as a counter-mode
keystream XOR plus a deterministic 16-byte tag, which captures the
structure the code relies on: a 12-byte nonce, ciphertext length equal
to plaintext length plus 16, seal/open round-trip, and fail-closed
authentication when the recomputed tag mismatches.
-/

namespace SecureConfig

/-- Fold a byte list into a single natural number (big-endian), used to
feed the whole nonce into the keystream and tag models. -/
def nonceNum (nonce : List Nat) : Nat :=
  nonce.foldl (fun a b => a * 256 + b) 0

/-- Modelled keystream byte of the AEAD (external library `crypto/cipher`
GCM): a deterministic byte derived from key, nonce and position. -/
def ks (ck : List Nat) (n i : Nat) : Nat :=
  (nonceNum ck + n * 7919 + i * 104729) % 256

/-- XOR a byte list with the keystream starting at position `i`.
Self-inverse, mirroring counter-mode encryption/decryption. -/
def maskBytes (ck : List Nat) (n : Nat) : Nat → List Nat → List Nat
  | _, [] => []
  | i, b :: bs => (b ^^^ ks ck n i) :: maskBytes ck n (i + 1) bs

/-- Modelled 16-byte authentication tag of the AEAD (external library):
a deterministic function of key, nonce and ciphertext. -/
def gcmTag (ck : List Nat) (n : Nat) (ct : List Nat) : List Nat :=
  let h := ct.foldl (fun a b => (a * 257 + b) % 4294967291) (nonceNum ck * 31 + n)
  (List.range 16).map (fun j => (h + j * 11) % 256)

/-- Errors surfaced by the store operations of the source
(`ciphertext too short`, `failed to decrypt`, `key not found`). -/
inductive StoreErr where
  | ciphertextTooShort
  | authFailed
  | keyNotFound
  deriving DecidableEq, Repr

/-- `Config.Encrypt`: draw a nonce (passed explicitly here, standing for
the bytes read from `crypto/rand`), then return
`nonce ++ GCM.Seal(nonce, plaintext)`. -/
def Encrypt (ck nonce p : List Nat) : List Nat :=
  let n := nonceNum nonce
  let ct := maskBytes ck n 0 p
  nonce ++ ct ++ gcmTag ck n ct

/-- `GCM.Open` on `ciphertext ++ tag` (external library model): fails
closed when too short or when the recomputed tag mismatches. -/
def gcmOpen (ck : List Nat) (n : Nat) (body : List Nat) : Except StoreErr (List Nat) :=
  if body.length < 16 then .error .authFailed
  else
    let ct := body.take (body.length - 16)
    let tag := body.drop (body.length - 16)
    if gcmTag ck n ct == tag then .ok (maskBytes ck n 0 ct)
    else .error .authFailed

/-- `Config.Decrypt`: split off the 12-byte GCM nonce, fail with
`ciphertext too short` when shorter, then open. -/
def Decrypt (ck data : List Nat) : Except StoreErr (List Nat) :=
  if data.length < 12 then .error .ciphertextTooShort
  else gcmOpen ck (nonceNum (data.take 12)) (data.drop 12)

/-- Standard base64 alphabet character at index `i` (byte value). -/
def b64Chr (i : Nat) : Nat :=
  if i < 26 then i + 65
  else if i < 52 then i + 71
  else if i < 62 then i - 4
  else if i = 62 then 43
  else 47

/-- Inverse alphabet lookup of `encoding/base64`: byte value of a
character to its 6-bit index, `none` for characters outside the
alphabet. -/
def b64Index (c : Nat) : Option Nat :=
  if 65 ≤ c ∧ c ≤ 90 then some (c - 65)
  else if 97 ≤ c ∧ c ≤ 122 then some (c - 71)
  else if 48 ≤ c ∧ c ≤ 57 then some (c + 4)
  else if c = 43 then some 62
  else if c = 47 then some 63
  else none

/-- `base64.StdEncoding.EncodeToString`: 3 input bytes to 4 alphabet
characters, with `=` (byte 61) padding for a 1- or 2-byte tail. -/
def base64Encode : List Nat → List Nat
  | [] => []
  | [b1] => [b64Chr (b1 / 4), b64Chr (b1 % 4 * 16), 61, 61]
  | [b1, b2] => [b64Chr (b1 / 4), b64Chr (b1 % 4 * 16 + b2 / 16), b64Chr (b2 % 16 * 4), 61]
  | b1 :: b2 :: b3 :: rest =>
      b64Chr (b1 / 4) :: b64Chr (b1 % 4 * 16 + b2 / 16) ::
      b64Chr (b2 % 16 * 4 + b3 / 64) :: b64Chr (b3 % 64) :: base64Encode rest

/-- Core of `base64.StdEncoding.DecodeString`: quartets of alphabet
characters, padding allowed only in the final quartet, failure on any
character outside the alphabet or a length not a multiple of 4. -/
def base64DecodeCore : List Nat → Option (List Nat)
  | [] => some []
  | c1 :: c2 :: c3 :: c4 :: rest =>
      match b64Index c1, b64Index c2 with
      | some i1, some i2 =>
          if c3 = 61 then
            if c4 = 61 ∧ rest = [] then some [i1 * 4 + i2 / 16] else none
          else
            match b64Index c3 with
            | some i3 =>
                if c4 = 61 then
                  if rest = [] then some [i1 * 4 + i2 / 16, i2 % 16 * 16 + i3 / 4] else none
                else
                  match b64Index c4 with
                  | some i4 =>
                      (base64DecodeCore rest).map
                        (fun t => (i1 * 4 + i2 / 16) :: (i2 % 16 * 16 + i3 / 4) :: (i3 % 4 * 64 + i4) :: t)
                  | none => none
            | none => none
      | _, _ => none
  | _ => none

/-- `base64.StdEncoding.DecodeString`: the Go decoder skips carriage
returns and newlines before decoding quartets. -/
def base64Decode (cs : List Nat) : Option (List Nat) :=
  base64DecodeCore (cs.filter (fun c => c ≠ 10 ∧ c ≠ 13))

/-- The reserved map key `"k"` holding the master key record. -/
def kSentinel : List Nat := [107]

/-- Go map assignment `c.DB[key] = value` on the association-list model:
replace the value when the key is present, otherwise append. -/
def dbInsert (db : List (List Nat × List Nat)) (k v : List Nat) :
    List (List Nat × List Nat) :=
  match db with
  | [] => [(k, v)]
  | e :: rest => if e.1 == k then (k, v) :: rest else e :: dbInsert rest k v

/-- `Config.Store`: seal the key and the value under fresh nonces,
base64-encode both, and insert the mapping into the database.  The
persistence write is `writeSecretsFile` of the result. -/
def Store (ck : List Nat) (db : List (List Nat × List Nat)) (k v n1 n2 : List Nat) :
    List (List Nat × List Nat) :=
  dbInsert db (base64Encode (Encrypt ck n1 k)) (base64Encode (Encrypt ck n2 v))

/-- One iteration of the `Config.Retrieve` scan: `none` means the loop
continues with the next entry, `some r` means the loop returns `r`. -/
def retrieveStep (ck k : List Nat) (e : List Nat × List Nat) :
    Option (Except StoreErr (List Nat)) :=
  if e.1 == kSentinel then none
  else
    match base64Decode e.1 with
    | none => none
    | some kb =>
        match Decrypt ck kb with
        | .error _ => none
        | .ok dk =>
            if dk == k then
              match base64Decode e.2 with
              | none => none
              | some vb => some (Decrypt ck vb)
            else none

/-- `Config.Retrieve`: scan the database in iteration order, skipping
the reserved record and entries whose key fails to decode or decrypt;
on a match return the decryption of the stored value (error included);
`key not found` after an exhausted scan. -/
def Retrieve (ck : List Nat) (db : List (List Nat × List Nat)) (k : List Nat) :
    Except StoreErr (List Nat) :=
  match db with
  | [] => .error .keyNotFound
  | e :: rest =>
      match retrieveStep ck k e with
      | some r => r
      | none => Retrieve ck rest k

/-- `Config.ListKeys`: every key that decodes and decrypts, in scan
order, the reserved record excluded. -/
def ListKeys (ck : List Nat) (db : List (List Nat × List Nat)) : List (List Nat) :=
  match db with
  | [] => []
  | e :: rest =>
      if e.1 == kSentinel then ListKeys ck rest
      else
        match base64Decode e.1 with
        | none => ListKeys ck rest
        | some kb =>
            match Decrypt ck kb with
            | .error _ => ListKeys ck rest
            | .ok dk => dk :: ListKeys ck rest

/-- Whether an entry is the one `Config.Delete` removes: not the
reserved record, and its stored key decodes and decrypts to `k`. -/
def deleteMatches (ck k : List Nat) (e : List Nat × List Nat) : Bool :=
  e.1 != kSentinel &&
    match base64Decode e.1 with
    | none => false
    | some kb =>
        match Decrypt ck kb with
        | .error _ => false
        | .ok dk => dk == k

/-- `Config.Delete`: scan in iteration order, remove the first matching
entry and return the updated database (the persistence write is
`writeSecretsFile` of it); `key not found` when no entry matches. -/
def Delete (ck : List Nat) (db : List (List Nat × List Nat)) (k : List Nat) :
    Except StoreErr (List (List Nat × List Nat)) :=
  match db with
  | [] => .error .keyNotFound
  | e :: rest =>
      if deleteMatches ck k e then .ok rest
      else
        match Delete ck rest k with
        | .ok db2 => .ok (e :: db2)
        | .error err => .error err

/-- Whether an entry's stored key decodes and decrypts to `k` — the
sense in which a plaintext key is already present in the table. -/
def keyMatchesEntry (ck k : List Nat) (e : List Nat × List Nat) : Bool :=
  match base64Decode e.1 with
  | none => false
  | some kb =>
      match Decrypt ck kb with
      | .error _ => false
      | .ok dk => dk == k

/-- Lowercase hexadecimal digit as a byte value. -/
def hexDigit (n : Nat) : Nat := if n < 10 then 48 + n else 87 + n

/-- `fmt.Sprintf("%x", bytes)`: two lowercase hex digits per byte. -/
def hexEncode : List Nat → List Nat
  | [] => []
  | b :: bs => hexDigit (b / 16) :: hexDigit (b % 16) :: hexEncode bs

/-- The database written by `NewConfigWithFile` at first creation:
exactly the reserved record mapping `"k"` to the hex of the fresh
master key. -/
def initialDB (key : List Nat) : List (List Nat × List Nat) :=
  [(kSentinel, hexEncode key)]

/-- The `"SCFG"` magic header bytes. -/
def magicBytes : List Nat := [83, 67, 70, 71]

/-- The supported container version. -/
def versionVal : Nat := 1

/-- `binary.BigEndian.PutUint32` of `uint32(n)`: four big-endian bytes
of `n` modulo `2 ^ 32`. -/
def toBytesBE (n : Nat) : List Nat :=
  [n / 16777216 % 256, n / 65536 % 256, n / 256 % 256, n % 256]

/-- `binary.BigEndian.Uint32` over the head of the byte list, together
with the `len(data) < offset+4` bounds check of the source: `none`
exactly when fewer than four bytes remain. -/
def readU32 : List Nat → Option (Nat × List Nat)
  | b0 :: b1 :: b2 :: b3 :: rest => some (((b0 * 256 + b1) * 256 + b2) * 256 + b3, rest)
  | _ => none

/-- Decode errors of `loadDB`, one constructor per error message of the
source. -/
inductive DecodeErr where
  | fileTooShort
  | invalidFormat
  | unsupportedVersion
  | shortEntryCount
  | shortKeyLen
  | shortKeyData
  | shortValueLen
  | shortValueData
  deriving DecidableEq, Repr

/-- The entry-reading loop of `loadDB`: `fuel` is the declared entry
count; each iteration reads key length, key bytes, value length, value
bytes, checking remaining length before each read, and stores the pair
with map-assignment semantics.  Bytes left over after the last declared
entry are ignored, as in the source. -/
def parseEntries : Nat → List (List Nat × List Nat) → List Nat →
    Except DecodeErr (List (List Nat × List Nat))
  | 0, db, _ => .ok db
  | n + 1, db, bs =>
      match readU32 bs with
      | none => .error .shortKeyLen
      | some (keyLen, r1) =>
          if r1.length < keyLen then .error .shortKeyData
          else
            match readU32 (r1.drop keyLen) with
            | none => .error .shortValueLen
            | some (valueLen, r2) =>
                if r2.length < valueLen then .error .shortValueData
                else
                  parseEntries n (dbInsert db (r1.take keyLen) (r2.take valueLen))
                    (r2.drop valueLen)

/-- `loadDB` on container bytes: length check, magic check, version
check, entry count, then the entry loop. -/
def loadDB (data : List Nat) : Except DecodeErr (List (List Nat × List Nat)) :=
  if data.length < 8 then .error .fileTooShort
  else if data.take 4 = magicBytes then
    match readU32 (data.drop 4) with
    | none => .error .fileTooShort
    | some (version, _) =>
        if version = versionVal then
          match readU32 (data.drop 8) with
          | none => .error .shortEntryCount
          | some (numEntries, rest) => parseEntries numEntries [] rest
        else .error .unsupportedVersion
  else .error .invalidFormat

/-- The serialized form of one entry in `writeSecretsFile`:
length-prefixed key bytes then length-prefixed value bytes. -/
def encodeEntry (e : List Nat × List Nat) : List Nat :=
  toBytesBE e.1.length ++ e.1 ++ toBytesBE e.2.length ++ e.2

/-- The serialized entry section of `writeSecretsFile`, in database
iteration order. -/
def entriesBytes : List (List Nat × List Nat) → List Nat
  | [] => []
  | e :: rest => encodeEntry e ++ entriesBytes rest

/-- `writeSecretsFile`: magic, version, entry count, then the entries. -/
def writeSecretsFile (db : List (List Nat × List Nat)) : List Nat :=
  magicBytes ++ toBytesBE versionVal ++ toBytesBE db.length ++ entriesBytes db

/-- The decode errors that report the input running out before declared
content — the truncation family, as opposed to the format and version
errors. -/
def isTruncErr : DecodeErr → Bool
  | .fileTooShort => true
  | .shortEntryCount => true
  | .shortKeyLen => true
  | .shortKeyData => true
  | .shortValueLen => true
  | .shortValueData => true
  | .invalidFormat => false
  | .unsupportedVersion => false

/-! ### Lemmas about the AEAD model -/

theorem gcmTag_length (ck : List Nat) (n : Nat) (ct : List Nat) :
    (gcmTag ck n ct).length = 16 := by
  simp [gcmTag]

theorem maskBytes_length (ck : List Nat) (n : Nat) :
    ∀ (i : Nat) (bs : List Nat), (maskBytes ck n i bs).length = bs.length
  | _, [] => rfl
  | i, _ :: bs => by
      simp [maskBytes, maskBytes_length ck n (i + 1) bs]

theorem maskBytes_maskBytes (ck : List Nat) (n : Nat) :
    ∀ (i : Nat) (bs : List Nat), maskBytes ck n i (maskBytes ck n i bs) = bs
  | _, [] => rfl
  | i, b :: bs => by
      simp [maskBytes, maskBytes_maskBytes ck n (i + 1) bs, Nat.xor_cancel_right]

theorem gcmOpen_ct_tag (ck : List Nat) (n : Nat) (ct : List Nat) :
    gcmOpen ck n (ct ++ gcmTag ck n ct) = .ok (maskBytes ck n 0 ct) := by
  have htag := gcmTag_length ck n ct
  have hlen : (ct ++ gcmTag ck n ct).length = ct.length + 16 := by
    simp [htag]
  simp only [gcmOpen, hlen, Nat.add_sub_cancel]
  rw [if_neg (by omega), List.take_left, List.drop_left]
  simp

theorem encrypt_assoc (ck n p : List Nat) :
    Encrypt ck n p =
      n ++ (maskBytes ck (nonceNum n) 0 p ++
        gcmTag ck (nonceNum n) (maskBytes ck (nonceNum n) 0 p)) := by
  simp [Encrypt]

theorem decrypt_encrypt (ck n p : List Nat) (hn : n.length = 12) :
    Decrypt ck (Encrypt ck n p) = .ok p := by
  rw [encrypt_assoc]
  simp only [Decrypt]
  rw [List.take_left' hn, List.drop_left' hn,
    if_neg (by
      simp only [List.length_append, hn, gcmTag_length, maskBytes_length]
      omega),
    gcmOpen_ct_tag, maskBytes_maskBytes]

theorem encrypt_length (ck n p : List Nat) :
    (Encrypt ck n p).length = n.length + p.length + 16 := by
  rw [encrypt_assoc]
  simp [gcmTag_length, maskBytes_length]
  omega

theorem ks_lt (ck : List Nat) (n i : Nat) : ks ck n i < 256 :=
  Nat.mod_lt _ (by omega)

theorem maskBytes_mem_lt (ck : List Nat) (n : Nat) :
    ∀ (i : Nat) (bs : List Nat), (∀ b ∈ bs, b < 256) →
      ∀ c ∈ maskBytes ck n i bs, c < 256
  | _, [], _ => by simp [maskBytes]
  | i, b :: bs, h => by
      simp only [maskBytes, List.mem_cons, forall_eq_or_imp]
      constructor
      · have h1 : b < 2 ^ 8 := h b (by simp)
        have h2 : ks ck n i < 2 ^ 8 := ks_lt ck n i
        exact Nat.xor_lt_two_pow h1 h2
      · exact fun c hc =>
          maskBytes_mem_lt ck n (i + 1) bs (fun x hx => h x (by simp [hx])) c hc

theorem gcmTag_mem_lt (ck : List Nat) (n : Nat) (ct : List Nat) :
    ∀ c ∈ gcmTag ck n ct, c < 256 := by
  simp only [gcmTag, List.mem_map, List.mem_range]
  rintro c ⟨j, _, rfl⟩
  exact Nat.mod_lt _ (by omega)

theorem encrypt_mem_lt (ck n p : List Nat) (hn : ∀ b ∈ n, b < 256)
    (hp : ∀ b ∈ p, b < 256) : ∀ c ∈ Encrypt ck n p, c < 256 := by
  rw [encrypt_assoc]
  intro c hc
  rcases List.mem_append.mp hc with h | h
  · exact hn c h
  · rcases List.mem_append.mp h with h2 | h2
    · exact maskBytes_mem_lt ck (nonceNum n) 0 p hp c h2
    · exact gcmTag_mem_lt ck (nonceNum n) _ c h2

/-! ### Lemmas about the base64 model -/

theorem b64Chr_ge (i : Nat) : 43 ≤ b64Chr i := by
  unfold b64Chr
  (repeat' split) <;> omega

theorem b64Chr_ne_pad (i : Nat) (h : i < 64) : b64Chr i ≠ 61 := by
  unfold b64Chr
  (repeat' split) <;> omega

theorem b64Index_chr : ∀ i, i < 64 → b64Index (b64Chr i) = some i := by
  decide

theorem base64Encode_mem_ge (bs : List Nat) : ∀ c ∈ base64Encode bs, 43 ≤ c := by
  match bs with
  | [] => simp [base64Encode]
  | [b1] =>
      simp only [base64Encode, List.mem_cons, List.not_mem_nil, or_false,
        forall_eq_or_imp, forall_eq]
      exact ⟨b64Chr_ge _, b64Chr_ge _, by omega, by omega⟩
  | [b1, b2] =>
      simp only [base64Encode, List.mem_cons, List.not_mem_nil, or_false,
        forall_eq_or_imp, forall_eq]
      exact ⟨b64Chr_ge _, b64Chr_ge _, b64Chr_ge _, by omega⟩
  | [b1, b2, b3] =>
      simp only [base64Encode, List.mem_cons, List.not_mem_nil, or_false,
        forall_eq_or_imp, forall_eq]
      exact ⟨b64Chr_ge _, b64Chr_ge _, b64Chr_ge _, b64Chr_ge _⟩
  | b1 :: b2 :: b3 :: b4 :: rest =>
      simp only [base64Encode, List.mem_cons, forall_eq_or_imp]
      exact ⟨b64Chr_ge _, b64Chr_ge _, b64Chr_ge _, b64Chr_ge _,
        fun c hc => base64Encode_mem_ge (b4 :: rest) c hc⟩

theorem base64Encode_filter (bs : List Nat) :
    (base64Encode bs).filter (fun c => c ≠ 10 ∧ c ≠ 13) = base64Encode bs := by
  apply List.filter_eq_self.mpr
  intro a ha
  have h := base64Encode_mem_ge bs a ha
  rw [decide_eq_true_eq]
  omega

theorem base64DecodeCore_pad2 (i1 i2 : Nat) (h1 : i1 < 64) (h2 : i2 < 64) :
    base64DecodeCore [b64Chr i1, b64Chr i2, 61, 61] = some [i1 * 4 + i2 / 16] := by
  rw [base64DecodeCore, b64Index_chr i1 h1, b64Index_chr i2 h2]
  simp only []
  simp

theorem base64DecodeCore_pad1 (i1 i2 i3 : Nat) (h1 : i1 < 64) (h2 : i2 < 64)
    (h3 : i3 < 64) :
    base64DecodeCore [b64Chr i1, b64Chr i2, b64Chr i3, 61] =
      some [i1 * 4 + i2 / 16, i2 % 16 * 16 + i3 / 4] := by
  rw [base64DecodeCore, b64Index_chr i1 h1, b64Index_chr i2 h2, b64Index_chr i3 h3]
  simp only []
  rw [if_neg (b64Chr_ne_pad i3 h3)]
  simp

theorem base64DecodeCore_quartet (i1 i2 i3 i4 : Nat) (rest : List Nat)
    (h1 : i1 < 64) (h2 : i2 < 64) (h3 : i3 < 64) (h4 : i4 < 64) :
    base64DecodeCore (b64Chr i1 :: b64Chr i2 :: b64Chr i3 :: b64Chr i4 :: rest) =
      (base64DecodeCore rest).map
        (fun t => (i1 * 4 + i2 / 16) :: (i2 % 16 * 16 + i3 / 4) ::
          (i3 % 4 * 64 + i4) :: t) := by
  rw [base64DecodeCore, b64Index_chr i1 h1, b64Index_chr i2 h2, b64Index_chr i3 h3,
    b64Index_chr i4 h4]
  simp only []
  rw [if_neg (b64Chr_ne_pad i3 h3), if_neg (b64Chr_ne_pad i4 h4)]

theorem base64DecodeCore_encode (bs : List Nat) (h : ∀ b ∈ bs, b < 256) :
    base64DecodeCore (base64Encode bs) = some bs := by
  match bs with
  | [] => rfl
  | [b1] =>
      have hb1 : b1 < 256 := h b1 (by simp)
      rw [base64Encode, base64DecodeCore_pad2 _ _ (by omega) (by omega)]
      simp only [Option.some.injEq, List.cons.injEq, and_true]
      omega
  | [b1, b2] =>
      have hb1 : b1 < 256 := h b1 (by simp)
      have hb2 : b2 < 256 := h b2 (by simp)
      rw [base64Encode, base64DecodeCore_pad1 _ _ _ (by omega) (by omega) (by omega)]
      simp only [Option.some.injEq, List.cons.injEq, and_true]
      omega
  | [b1, b2, b3] =>
      have hb1 : b1 < 256 := h b1 (by simp)
      have hb2 : b2 < 256 := h b2 (by simp)
      have hb3 : b3 < 256 := h b3 (by simp)
      rw [base64Encode,
        base64DecodeCore_quartet _ _ _ _ _ (by omega) (by omega) (by omega) (by omega)]
      show Option.map _ (base64DecodeCore (base64Encode [])) = _
      rw [base64DecodeCore_encode [] (by simp)]
      simp only [Option.map_some', Option.some.injEq, List.cons.injEq, and_true]
      omega
  | b1 :: b2 :: b3 :: b4 :: rest =>
      have hb1 : b1 < 256 := h b1 (by simp)
      have hb2 : b2 < 256 := h b2 (by simp)
      have hb3 : b3 < 256 := h b3 (by simp)
      have ih := base64DecodeCore_encode (b4 :: rest)
        (fun x hx => h x (by simp only [List.mem_cons] at hx ⊢; tauto))
      rw [base64Encode,
        base64DecodeCore_quartet _ _ _ _ _ (by omega) (by omega) (by omega) (by omega),
        ih]
      simp only [Option.map_some', Option.some.injEq, List.cons.injEq, and_true]
      refine ⟨by omega, by omega, by omega⟩

theorem base64_roundtrip (bs : List Nat) (h : ∀ b ∈ bs, b < 256) :
    base64Decode (base64Encode bs) = some bs := by
  rw [base64Decode, base64Encode_filter, base64DecodeCore_encode bs h]

/-! ### Lemmas about the record store scan -/

theorem base64Decode_kSentinel : base64Decode kSentinel = none := rfl

theorem Retrieve_cons_some (ck k : List Nat) (e : List Nat × List Nat)
    (rest : List (List Nat × List Nat)) (r : Except StoreErr (List Nat))
    (h : retrieveStep ck k e = some r) : Retrieve ck (e :: rest) k = r := by
  simp only [Retrieve, h]

theorem Retrieve_cons_none (ck k : List Nat) (e : List Nat × List Nat)
    (rest : List (List Nat × List Nat)) (h : retrieveStep ck k e = none) :
    Retrieve ck (e :: rest) k = Retrieve ck rest k := by
  simp only [Retrieve, h]

theorem Retrieve_append_none (ck k : List Nat) (db1 db2 : List (List Nat × List Nat))
    (h : ∀ e ∈ db1, retrieveStep ck k e = none) :
    Retrieve ck (db1 ++ db2) k = Retrieve ck db2 k := by
  induction db1 with
  | nil => rfl
  | cons e rest ih =>
      rw [List.cons_append, Retrieve_cons_none ck k e _ (h e (by simp))]
      exact ih (fun x hx => h x (by simp [hx]))

theorem retrieveStep_none_of_no_keymatch (ck k : List Nat) (e : List Nat × List Nat)
    (h : keyMatchesEntry ck k e = false) : retrieveStep ck k e = none := by
  cases hs : (e.1 == kSentinel) with
  | true => simp [retrieveStep, hs]
  | false =>
      unfold keyMatchesEntry at h
      cases hd : base64Decode e.1 with
      | none => simp [retrieveStep, hs, hd]
      | some kb =>
          rw [hd] at h
          simp only [] at h
          cases hD : Decrypt ck kb with
          | error err => simp [retrieveStep, hs, hd, hD]
          | ok dk =>
              rw [hD] at h
              simp only [] at h
              simp [retrieveStep, hs, hd, hD, h]

theorem retrieveStep_hit (ck k : List Nat) (e : List Nat × List Nat) (kb vb : List Nat)
    (h1 : base64Decode e.1 = some kb) (h2 : Decrypt ck kb = .ok k)
    (h3 : base64Decode e.2 = some vb) :
    retrieveStep ck k e = some (Decrypt ck vb) := by
  have hs : (e.1 == kSentinel) = false := by
    cases hb : (e.1 == kSentinel) with
    | false => rfl
    | true =>
        have he := eq_of_beq hb
        rw [he, base64Decode_kSentinel] at h1
        exact Option.noConfusion h1
  simp [retrieveStep, hs, h1, h2, h3]

theorem dbInsert_append (db : List (List Nat × List Nat)) (k v : List Nat)
    (h : ∀ e ∈ db, e.1 ≠ k) : dbInsert db k v = db ++ [(k, v)] := by
  induction db with
  | nil => rfl
  | cons e rest ih =>
      simp only [dbInsert]
      rw [if_neg (by simp only [beq_iff_eq]; exact h e (by simp))]
      rw [ih (fun x hx => h x (by simp [hx]))]
      rfl

theorem deleteMatches_eq (ck k : List Nat) (e : List Nat × List Nat) :
    deleteMatches ck k e = ((e.1 != kSentinel) && keyMatchesEntry ck k e) := rfl

theorem deleteMatches_false_step (ck k : List Nat) (e : List Nat × List Nat)
    (h : deleteMatches ck k e = false) : retrieveStep ck k e = none := by
  cases hs : (e.1 == kSentinel) with
  | true => simp [retrieveStep, hs]
  | false =>
      rw [deleteMatches_eq] at h
      simp only [bne, hs, Bool.not_false, Bool.true_and] at h
      exact retrieveStep_none_of_no_keymatch ck k e h

theorem Delete_none (ck k : List Nat) (db : List (List Nat × List Nat))
    (h : ∀ e ∈ db, deleteMatches ck k e = false) :
    Delete ck db k = .error .keyNotFound := by
  induction db with
  | nil => rfl
  | cons e rest ih =>
      simp only [Delete, h e (by simp)]
      rw [ih (fun x hx => h x (by simp [hx]))]
      rfl

theorem Delete_first (ck k : List Nat) (pre : List (List Nat × List Nat))
    (e : List Nat × List Nat) (post : List (List Nat × List Nat))
    (hpre : ∀ x ∈ pre, deleteMatches ck k x = false)
    (he : deleteMatches ck k e = true) :
    Delete ck (pre ++ e :: post) k = .ok (pre ++ post) := by
  induction pre with
  | nil => simp only [List.nil_append, Delete, he]; rfl
  | cons x rest ih =>
      simp only [List.cons_append, Delete, hpre x (by simp), List.append_eq]
      rw [ih (fun y hy => hpre y (by simp [hy]))]
      rfl

theorem ListKeys_not_mem (ck k : List Nat) (db : List (List Nat × List Nat))
    (h : ∀ e ∈ db, deleteMatches ck k e = false) : k ∉ ListKeys ck db := by
  induction db with
  | nil => simp [ListKeys]
  | cons e rest ih =>
      have hrest := ih (fun x hx => h x (by simp [hx]))
      cases hs : (e.1 == kSentinel) with
      | true => simpa [ListKeys, hs] using hrest
      | false =>
          have he := h e (by simp)
          rw [deleteMatches_eq] at he
          simp only [bne, hs, Bool.not_false, Bool.true_and] at he
          unfold keyMatchesEntry at he
          cases hd : base64Decode e.1 with
          | none => simpa [ListKeys, hs, hd] using hrest
          | some kb =>
              rw [hd] at he
              simp only [] at he
              cases hD : Decrypt ck kb with
              | error err => simpa [ListKeys, hs, hd, hD] using hrest
              | ok dk =>
                  rw [hD] at he
                  simp only [] at he
                  have hne : dk ≠ k := by
                    intro hdk
                    rw [hdk] at he
                    simp at he
                  simp only [ListKeys, hs, hd, hD]
                  intro hmem
                  rcases List.mem_cons.mp hmem with hmem | hmem
                  · exact hne hmem.symm
                  · exact hrest hmem

/-! ### Lemmas about the persistence codec -/

theorem readU32_toBytesBE (n : Nat) (q : List Nat) (h : n < 4294967296) :
    readU32 (toBytesBE n ++ q) = some (n, q) := by
  simp only [toBytesBE, List.cons_append, List.nil_append, readU32]
  have harith :
      ((n / 16777216 % 256 * 256 + n / 65536 % 256) * 256 + n / 256 % 256) * 256 + n % 256
        = n := by omega
  rw [harith]

theorem readU32_none (p : List Nat) (h : p.length < 4) : readU32 p = none := by
  match p with
  | [] => rfl
  | [_] => rfl
  | [_, _] => rfl
  | [_, _, _] => rfl
  | _ :: _ :: _ :: _ :: _ => simp only [List.length_cons] at h; omega

theorem toBytesBE_length (n : Nat) : (toBytesBE n).length = 4 := rfl

theorem prefix_split (a b p : List Nat) (n : Nat) (ha : a.length = n)
    (hp : p <+: a ++ b) (hlen : n ≤ p.length) :
    ∃ q, p = a ++ q ∧ q <+: b ∧ q.length = p.length - n := by
  obtain ⟨t, ht⟩ := hp
  have h2 := congrArg (List.take n) ht
  rw [List.take_append_eq_append_take, Nat.sub_eq_zero_of_le hlen, List.take_zero,
    List.append_nil, List.take_left' ha] at h2
  have hpe : p = a ++ p.drop n := by
    conv_lhs => rw [← List.take_append_drop n p]
    rw [h2]
  refine ⟨p.drop n, hpe, ?_, List.length_drop n p⟩
  rw [hpe, List.append_assoc] at ht
  exact ⟨t, List.append_cancel_left ht⟩

theorem parseEntries_step_none (n : Nat) (acc : List (List Nat × List Nat))
    (bs : List Nat) (h : readU32 bs = none) :
    parseEntries (n + 1) acc bs = .error .shortKeyLen := by
  simp only [parseEntries, h]

theorem parseEntries_step_shortKey (n : Nat) (acc : List (List Nat × List Nat))
    (bs : List Nat) (keyLen : Nat) (r1 : List Nat)
    (h : readU32 bs = some (keyLen, r1)) (hlt : r1.length < keyLen) :
    parseEntries (n + 1) acc bs = .error .shortKeyData := by
  simp only [parseEntries, h]
  rw [if_pos hlt]

theorem parseEntries_step_shortValueLen (n : Nat) (acc : List (List Nat × List Nat))
    (bs : List Nat) (keyLen : Nat) (r1 : List Nat)
    (h : readU32 bs = some (keyLen, r1)) (hge : ¬ r1.length < keyLen)
    (h2 : readU32 (r1.drop keyLen) = none) :
    parseEntries (n + 1) acc bs = .error .shortValueLen := by
  simp only [parseEntries, h]
  rw [if_neg hge]
  simp only [h2]

theorem parseEntries_step_shortValueData (n : Nat) (acc : List (List Nat × List Nat))
    (bs : List Nat) (keyLen : Nat) (r1 : List Nat) (valueLen : Nat) (r2 : List Nat)
    (h : readU32 bs = some (keyLen, r1)) (hge : ¬ r1.length < keyLen)
    (h2 : readU32 (r1.drop keyLen) = some (valueLen, r2)) (hlt : r2.length < valueLen) :
    parseEntries (n + 1) acc bs = .error .shortValueData := by
  simp only [parseEntries, h]
  rw [if_neg hge]
  simp only [h2]
  rw [if_pos hlt]

theorem parseEntries_step_ok (n : Nat) (acc : List (List Nat × List Nat))
    (bs : List Nat) (keyLen : Nat) (r1 : List Nat) (valueLen : Nat) (r2 : List Nat)
    (h : readU32 bs = some (keyLen, r1)) (hge : ¬ r1.length < keyLen)
    (h2 : readU32 (r1.drop keyLen) = some (valueLen, r2)) (hge2 : ¬ r2.length < valueLen) :
    parseEntries (n + 1) acc bs =
      parseEntries n (dbInsert acc (r1.take keyLen) (r2.take valueLen))
        (r2.drop valueLen) := by
  simp only [parseEntries, h]
  rw [if_neg hge]
  simp only [h2]
  rw [if_neg hge2]

theorem entriesBytes_cons (k v : List Nat) (rest : List (List Nat × List Nat)) :
    entriesBytes ((k, v) :: rest) =
      toBytesBE k.length ++ (k ++ (toBytesBE v.length ++ (v ++ entriesBytes rest))) := by
  simp [entriesBytes, encodeEntry, List.append_assoc]

theorem parseEntries_entries (db : List (List Nat × List Nat)) :
    ∀ (acc : List (List Nat × List Nat)) (extra : List Nat),
    (∀ e ∈ db, e.1.length < 4294967296 ∧ e.2.length < 4294967296) →
    (∀ e ∈ db, ∀ a ∈ acc, a.1 ≠ e.1) →
    db.Pairwise (fun a b => a.1 ≠ b.1) →
    parseEntries db.length acc (entriesBytes db ++ extra) = .ok (acc ++ db) := by
  induction db with
  | nil => intro acc extra _ _ _; simp [parseEntries, entriesBytes]
  | cons e rest ih =>
      intro acc extra hlens hdisj hpw
      obtain ⟨k, v⟩ := e
      have hk : k.length < 4294967296 := (hlens (k, v) (by simp)).1
      have hv : v.length < 4294967296 := (hlens (k, v) (by simp)).2
      rw [entriesBytes_cons]
      have hshape : (toBytesBE k.length ++ (k ++ (toBytesBE v.length ++
          (v ++ entriesBytes rest)))) ++ extra =
          toBytesBE k.length ++ (k ++ (toBytesBE v.length ++
            (v ++ (entriesBytes rest ++ extra)))) := by
        simp [List.append_assoc]
      rw [hshape, List.length_cons]
      rw [parseEntries_step_ok rest.length acc _ k.length
        (k ++ (toBytesBE v.length ++ (v ++ (entriesBytes rest ++ extra))))
        v.length (v ++ (entriesBytes rest ++ extra))
        (readU32_toBytesBE _ _ hk)
        (by simp only [List.length_append]; omega)
        (by rw [List.drop_left]; exact readU32_toBytesBE _ _ hv)
        (by simp only [List.length_append]; omega)]
      rw [List.take_left, List.take_left, List.drop_left]
      have hins : dbInsert acc k v = acc ++ [(k, v)] :=
        dbInsert_append acc k v (fun a ha => hdisj (k, v) (by simp) a ha)
      rw [hins]
      rw [ih (acc ++ [(k, v)]) extra
        (fun x hx => hlens x (by simp [hx]))
        (by
          intro x hx a ha
          rcases List.mem_append.mp ha with ha2 | ha2
          · exact hdisj x (by simp [hx]) a ha2
          · have hax : a = (k, v) := by simpa using ha2
            rw [hax]
            exact (List.pairwise_cons.mp hpw).1 x hx)
        (List.pairwise_cons.mp hpw).2]
      simp

theorem parseEntries_truncated (db : List (List Nat × List Nat)) :
    ∀ (acc : List (List Nat × List Nat)) (p : List Nat),
    (∀ e ∈ db, e.1.length < 4294967296 ∧ e.2.length < 4294967296) →
    p <+: entriesBytes db → p.length < (entriesBytes db).length →
    ∃ err, parseEntries db.length acc p = .error err ∧ isTruncErr err = true := by
  induction db with
  | nil =>
      intro acc p _ hp hl
      simp only [entriesBytes, List.length_nil] at hl
      omega
  | cons e rest ih =>
      intro acc p hlens hp hl
      obtain ⟨k, v⟩ := e
      have hk : k.length < 4294967296 := (hlens (k, v) (by simp)).1
      have hv : v.length < 4294967296 := (hlens (k, v) (by simp)).2
      rw [entriesBytes_cons] at hp hl
      rw [List.length_cons]
      by_cases h4 : p.length < 4
      · exact ⟨.shortKeyLen, parseEntries_step_none _ _ _ (readU32_none p h4), rfl⟩
      · push_neg at h4
        obtain ⟨q, hpeq, hq, hqlen⟩ :=
          prefix_split (toBytesBE k.length) _ p 4 rfl hp h4
        subst hpeq
        by_cases hkd : q.length < k.length
        · exact ⟨.shortKeyData,
            parseEntries_step_shortKey _ _ _ _ _ (readU32_toBytesBE _ _ hk) hkd, rfl⟩
        · push_neg at hkd
          obtain ⟨r, hqeq, hr, hrlen⟩ := prefix_split k _ q k.length rfl hq hkd
          subst hqeq
          by_cases hvl : r.length < 4
          · refine ⟨.shortValueLen,
              parseEntries_step_shortValueLen _ _ _ _ _ (readU32_toBytesBE _ _ hk)
                (by simp only [List.length_append]; omega) ?_, rfl⟩
            rw [List.drop_left]
            exact readU32_none r hvl
          · push_neg at hvl
            obtain ⟨s, hreq, hs, hslen⟩ :=
              prefix_split (toBytesBE v.length) _ r 4 rfl hr hvl
            subst hreq
            by_cases hvd : s.length < v.length
            · refine ⟨.shortValueData,
                parseEntries_step_shortValueData _ _ _ _ _ _ _
                  (readU32_toBytesBE _ _ hk)
                  (by simp only [List.length_append]; omega) ?_ hvd, rfl⟩
              rw [List.drop_left]
              exact readU32_toBytesBE _ _ hv
            · push_neg at hvd
              obtain ⟨t, hseq, ht, htlen⟩ := prefix_split v _ s v.length rfl hs hvd
              subst hseq
              rw [parseEntries_step_ok rest.length acc _ k.length
                (k ++ (toBytesBE v.length ++ (v ++ t))) v.length (v ++ t)
                (readU32_toBytesBE _ _ hk)
                (by simp only [List.length_append]; omega)
                (by rw [List.drop_left]; exact readU32_toBytesBE _ _ hv)
                (by simp only [List.length_append]; omega)]
              rw [List.take_left, List.take_left, List.drop_left]
              apply ih _ t (fun x hx => hlens x (by simp [hx])) ht
              have hlen2 : (toBytesBE k.length ++ (k ++ (toBytesBE v.length ++
                  (v ++ entriesBytes rest)))).length =
                  8 + k.length + v.length + (entriesBytes rest).length := by
                simp only [List.length_append, toBytesBE_length]
                omega
              have hlen3 : (toBytesBE k.length ++ (k ++ (toBytesBE v.length ++
                  (v ++ t)))).length = 8 + k.length + v.length + t.length := by
                simp only [List.length_append, toBytesBE_length]
                omega
              rw [hlen2] at hl
              rw [hlen3] at hl
              omega

/-! ### Additional codec evaluation lemmas -/

theorem magicBytes_length : magicBytes.length = 4 := rfl

theorem loadDB_short (data : List Nat) (h : data.length < 8) :
    loadDB data = .error .fileTooShort := by
  simp only [loadDB]
  rw [if_pos h]

theorem loadDB_badMagic (data : List Nat) (h8 : ¬ data.length < 8)
    (hm : data.take 4 ≠ magicBytes) : loadDB data = .error .invalidFormat := by
  simp only [loadDB]
  rw [if_neg h8, if_neg hm]

theorem loadDB_badVersion (data : List Nat) (v : Nat) (r : List Nat)
    (h8 : ¬ data.length < 8) (hm : data.take 4 = magicBytes)
    (hv : readU32 (data.drop 4) = some (v, r)) (hne : v ≠ versionVal) :
    loadDB data = .error .unsupportedVersion := by
  simp only [loadDB]
  rw [if_neg h8, if_pos hm, hv]
  simp only []
  rw [if_neg hne]

theorem loadDB_shortCount (data : List Nat) (r : List Nat)
    (h8 : ¬ data.length < 8) (hm : data.take 4 = magicBytes)
    (hv : readU32 (data.drop 4) = some (versionVal, r))
    (hc : readU32 (data.drop 8) = none) :
    loadDB data = .error .shortEntryCount := by
  simp only [loadDB]
  rw [if_neg h8, if_pos hm, hv]
  simp only [if_true]
  simp [hc]

theorem loadDB_entries (data : List Nat) (r : List Nat) (cnt : Nat) (rest : List Nat)
    (h8 : ¬ data.length < 8) (hm : data.take 4 = magicBytes)
    (hv : readU32 (data.drop 4) = some (versionVal, r))
    (hc : readU32 (data.drop 8) = some (cnt, rest)) :
    loadDB data = parseEntries cnt [] rest := by
  simp only [loadDB]
  rw [if_neg h8, if_pos hm, hv]
  simp only [if_true]
  simp [hc]

theorem loadDB_write_append (db : List (List Nat × List Nat)) (junk : List Nat)
    (hcnt : db.length < 4294967296)
    (hlens : ∀ e ∈ db, e.1.length < 4294967296 ∧ e.2.length < 4294967296)
    (hpw : db.Pairwise (fun a b => a.1 ≠ b.1)) :
    loadDB (writeSecretsFile db ++ junk) = .ok db := by
  have e4 : writeSecretsFile db ++ junk =
      magicBytes ++ (toBytesBE versionVal ++
        (toBytesBE db.length ++ (entriesBytes db ++ junk))) := by
    simp [writeSecretsFile, List.append_assoc]
  have e8 : writeSecretsFile db ++ junk =
      (magicBytes ++ toBytesBE versionVal) ++
        (toBytesBE db.length ++ (entriesBytes db ++ junk)) := by
    simp [writeSecretsFile, List.append_assoc]
  have h8 : ¬ (writeSecretsFile db ++ junk).length < 8 := by
    rw [e8]
    simp only [List.length_append, magicBytes_length, toBytesBE_length]
    omega
  have htake : (writeSecretsFile db ++ junk).take 4 = magicBytes := by
    rw [e4]
    exact List.take_left' rfl
  have hdrop4 : (writeSecretsFile db ++ junk).drop 4 =
      toBytesBE versionVal ++ (toBytesBE db.length ++ (entriesBytes db ++ junk)) := by
    rw [e4]
    exact List.drop_left' rfl
  have hdrop8 : (writeSecretsFile db ++ junk).drop 8 =
      toBytesBE db.length ++ (entriesBytes db ++ junk) := by
    rw [e8]
    exact List.drop_left' rfl
  rw [loadDB_entries _ (toBytesBE db.length ++ (entriesBytes db ++ junk)) db.length
    (entriesBytes db ++ junk) h8 htake
    (by rw [hdrop4]; exact readU32_toBytesBE _ _ (by decide))
    (by rw [hdrop8]; exact readU32_toBytesBE _ _ hcnt)]
  rw [parseEntries_entries db [] junk hlens (by simp) hpw]
  simp

/-! ### The claims -/

/-- C1 (corrected), counterexample: storing the same plaintext key twice
creates a second sealed entry instead of overwriting the first, and the
scan of `get` can then return the previously stored value, not the one
just put. -/
theorem claim1_overwrite_counterexample :
    Retrieve [1]
      (Store [1]
        (Store [1] [] [100] [65] [0, 0, 0, 0, 0, 0, 0, 0, 0, 0, 0, 1]
          [0, 0, 0, 0, 0, 0, 0, 0, 0, 0, 0, 2])
        [100] [66] [0, 0, 0, 0, 0, 0, 0, 0, 0, 0, 0, 3]
        [0, 0, 0, 0, 0, 0, 0, 0, 0, 0, 0, 4])
      [100] = .ok [65] ∧ ([65] : List Nat) ≠ [66] :=
  ⟨rfl, by decide⟩

/-- C1 (amended): for a plaintext key not already present in the table
(no entry's sealed key decodes and decrypts to `k`), after
`put(k, v)` succeeds, `get(k)` returns `v`; `put` inserts a fresh sealed
entry and does not overwrite a previously stored mapping for the same
plaintext key. -/
theorem claim1_put_then_get_fresh (ck : List Nat) (db : List (List Nat × List Nat))
    (k v n1 n2 : List Nat) (hk : k ≠ []) (hv : v ≠ [])
    (h1 : n1.length = 12) (h2 : n2.length = 12)
    (hb1 : ∀ b ∈ n1, b < 256) (hb2 : ∀ b ∈ n2, b < 256)
    (hkb : ∀ b ∈ k, b < 256) (hvb : ∀ b ∈ v, b < 256)
    (hfresh : ∀ e ∈ db, keyMatchesEntry ck k e = false) :
    Retrieve ck (Store ck db k v n1 n2) k = .ok v := by
  have hdk : base64Decode (base64Encode (Encrypt ck n1 k)) = some (Encrypt ck n1 k) :=
    base64_roundtrip _ (encrypt_mem_lt ck n1 k hb1 hkb)
  have hdv : base64Decode (base64Encode (Encrypt ck n2 v)) = some (Encrypt ck n2 v) :=
    base64_roundtrip _ (encrypt_mem_lt ck n2 v hb2 hvb)
  have hDk : Decrypt ck (Encrypt ck n1 k) = .ok k := decrypt_encrypt ck n1 k h1
  have hDv : Decrypt ck (Encrypt ck n2 v) = .ok v := decrypt_encrypt ck n2 v h2
  have hnotin : ∀ e ∈ db, e.1 ≠ base64Encode (Encrypt ck n1 k) := by
    intro e he heq
    have htrue : keyMatchesEntry ck k e = true := by
      unfold keyMatchesEntry
      rw [heq, hdk]
      simp only []
      rw [hDk]
      simp
    exact Bool.noConfusion ((hfresh e he).symm.trans htrue)
  have hins : Store ck db k v n1 n2 =
      db ++ [(base64Encode (Encrypt ck n1 k), base64Encode (Encrypt ck n2 v))] :=
    dbInsert_append db _ _ hnotin
  rw [hins,
    Retrieve_append_none ck k db _
      (fun e he => retrieveStep_none_of_no_keymatch ck k e (hfresh e he)),
    Retrieve_cons_some ck k _ [] _
      (retrieveStep_hit ck k _ (Encrypt ck n1 k) (Encrypt ck n2 v) hdk hDk hdv)]
  exact hDv

/-- C1 witness: a concrete fresh put followed by get returns the stored
value. -/
theorem claim1_witness :
    Retrieve [1]
      (Store [1] [] [100] [65] [0, 0, 0, 0, 0, 0, 0, 0, 0, 0, 0, 9]
        [0, 0, 0, 0, 0, 0, 0, 0, 0, 0, 0, 10]) [100] = .ok [65] :=
  claim1_put_then_get_fresh [1] [] [100] [65] _ _ (by decide) (by decide) rfl rfl
    (by decide) (by decide) (by decide) (by decide) (by simp)

/-- C2 (confirmed): during the scan of `get`, an entry that is not the
reserved record and whose stored key fails to decode or fails to
decrypt is skipped without aborting the scan; when an entry's stored
key decodes and decrypts to the requested key and the stored value
decodes but fails to decrypt, `get` propagates that decryption error
instead of skipping the entry. -/
theorem claim2_scan_skip_and_propagate (ck k : List Nat) (e : List Nat × List Nat)
    (rest : List (List Nat × List Nat)) :
    (e.1 ≠ kSentinel →
      (base64Decode e.1 = none ∨
        ∃ kb err, base64Decode e.1 = some kb ∧ Decrypt ck kb = .error err) →
      Retrieve ck (e :: rest) k = Retrieve ck rest k) ∧
    (∀ kb vb err, base64Decode e.1 = some kb → Decrypt ck kb = .ok k →
      base64Decode e.2 = some vb → Decrypt ck vb = .error err →
      Retrieve ck (e :: rest) k = .error err) := by
  constructor
  · intro hs hfail
    apply Retrieve_cons_none
    have hsb : (e.1 == kSentinel) = false := beq_eq_false_iff_ne.mpr hs
    rcases hfail with hd | ⟨kb, err, hd, hD⟩
    · simp [retrieveStep, hsb, hd]
    · simp [retrieveStep, hsb, hd, hD]
  · intro kb vb err hd hD hv hVerr
    rw [Retrieve_cons_some ck k e rest _ (retrieveStep_hit ck k e kb vb hd hD hv)]
    exact hVerr

/-- C2 witness: a non-base64 key entry is skipped, and a matched key
whose sealed value has a bad authentication tag yields the propagated
authentication error. -/
theorem claim2_witness :
    Retrieve [1] (([33], [0]) :: (([107], [9]) :: [])) [100] =
      Retrieve [1] (([107], [9]) :: []) [100] ∧
    Retrieve [1]
      [(base64Encode (Encrypt [1] [0, 0, 0, 0, 0, 0, 0, 0, 0, 0, 0, 8] [100]),
        base64Encode (List.replicate 28 0))] [100] = .error .authFailed := by
  constructor
  · exact (claim2_scan_skip_and_propagate [1] [100] ([33], [0]) _).1 (by decide)
      (Or.inl (by decide))
  · exact (claim2_scan_skip_and_propagate [1] [100] _ []).2
      (Encrypt [1] [0, 0, 0, 0, 0, 0, 0, 0, 0, 0, 0, 8] [100])
      (List.replicate 28 0) .authFailed (by decide) rfl (by decide) rfl

/-- C3 (code bug): the container written by the store with the reserved
master-key record at the head of the table — in particular the
container written at first creation, whose table is exactly
`initialDB key` — contains the hex encoding of the master key verbatim
as an infix of its bytes: the reserved record is persisted in
plaintext, not sealed. -/
theorem claim3_master_key_in_plaintext (key : List Nat)
    (db : List (List Nat × List Nat)) :
    initialDB key = [(kSentinel, hexEncode key)] ∧
    hexEncode key <:+: writeSecretsFile ((kSentinel, hexEncode key) :: db) := by
  refine ⟨rfl, ?_⟩
  refine ⟨magicBytes ++ toBytesBE versionVal ++
    toBytesBE ((kSentinel, hexEncode key) :: db).length ++
    toBytesBE kSentinel.length ++ kSentinel ++ toBytesBE (hexEncode key).length,
    entriesBytes db, ?_⟩
  simp [writeSecretsFile, entriesBytes, encodeEntry, List.append_assoc]

/-- C4 (confirmed): decrypting a freshly sealed value under the same key
returns the original plaintext, for every plaintext byte sequence and
every 12-byte nonce. -/
theorem claim4_seal_open_roundtrip (ck n p : List Nat) (hn : n.length = 12) :
    Decrypt ck (Encrypt ck n p) = .ok p :=
  decrypt_encrypt ck n p hn

/-- C4 witness: a concrete seal/open round-trip. -/
theorem claim4_witness :
    Decrypt [1] (Encrypt [1] [0, 0, 0, 0, 0, 0, 0, 0, 0, 0, 0, 7] [104, 105]) =
      .ok [104, 105] :=
  claim4_seal_open_roundtrip [1] [0, 0, 0, 0, 0, 0, 0, 0, 0, 0, 0, 7] [104, 105] rfl

/-- C5 (confirmed): sealing the same plaintext under two distinct drawn
nonces yields different outputs, because the nonce prefixes the sealed
bytes. -/
theorem claim5_distinct_nonce_distinct_seal (ck p n1 n2 : List Nat)
    (h1 : n1.length = 12) (h2 : n2.length = 12) (hne : n1 ≠ n2) :
    Encrypt ck n1 p ≠ Encrypt ck n2 p := by
  intro h
  rw [encrypt_assoc, encrypt_assoc] at h
  exact hne (List.append_inj h (h1.trans h2.symm)).1

/-- C5 witness: two concrete distinct nonces give distinct sealed
outputs for the same plaintext. -/
theorem claim5_witness :
    Encrypt [1] [0, 0, 0, 0, 0, 0, 0, 0, 0, 0, 0, 1] [9] ≠
      Encrypt [1] [0, 0, 0, 0, 0, 0, 0, 0, 0, 0, 0, 2] [9] :=
  claim5_distinct_nonce_distinct_seal [1] [9] _ _ rfl rfl (by decide)

/-- C6 (confirmed): decoding the encoding of any container state — the
entry count and the entry lengths being representable in 32 bits, and
the keys distinct as they are in a Go map — succeeds and returns
exactly the same entries, for any container including the empty one. -/
theorem claim6_structural_roundtrip (db : List (List Nat × List Nat))
    (hcnt : db.length < 4294967296)
    (hlens : ∀ e ∈ db, e.1.length < 4294967296 ∧ e.2.length < 4294967296)
    (hpw : db.Pairwise (fun a b => a.1 ≠ b.1)) :
    loadDB (writeSecretsFile db) = .ok db := by
  have h := loadDB_write_append db [] hcnt hlens hpw
  rwa [List.append_nil] at h

/-- C6 witness: a concrete round-trip for the empty container and for a
one-entry container. -/
theorem claim6_witness :
    loadDB (writeSecretsFile []) = .ok [] ∧
    loadDB (writeSecretsFile [([65], [66, 67])]) = .ok [([65], [66, 67])] :=
  ⟨claim6_structural_roundtrip [] (by decide) (by simp) (by simp),
   claim6_structural_roundtrip [([65], [66, 67])] (by decide) (by decide) (by simp)⟩

/-- C7 (confirmed): decoding any strict prefix of a valid encoded
container fails with an error of the truncation family — never the
format or version error, never a successful partial parse — and the
total decoder never reads out of bounds. -/
theorem claim7_truncation (db : List (List Nat × List Nat)) (p : List Nat)
    (hcnt : db.length < 4294967296)
    (hlens : ∀ e ∈ db, e.1.length < 4294967296 ∧ e.2.length < 4294967296)
    (hp : p <+: writeSecretsFile db)
    (hlt : p.length < (writeSecretsFile db).length) :
    ∃ err, loadDB p = .error err ∧ isTruncErr err = true := by
  have e4 : writeSecretsFile db =
      magicBytes ++ (toBytesBE versionVal ++
        (toBytesBE db.length ++ entriesBytes db)) := by
    simp [writeSecretsFile, List.append_assoc]
  have hwlen : (writeSecretsFile db).length = 12 + (entriesBytes db).length := by
    rw [e4]
    simp only [List.length_append, magicBytes_length, toBytesBE_length]
    omega
  by_cases h8 : p.length < 8
  · exact ⟨.fileTooShort, loadDB_short p h8, rfl⟩
  · push_neg at h8
    have hp8 : p <+: (magicBytes ++ toBytesBE versionVal) ++
        (toBytesBE db.length ++ entriesBytes db) := by
      rw [e4] at hp
      simpa [List.append_assoc] using hp
    obtain ⟨q, hpeq, hq, hqlen⟩ :=
      prefix_split (magicBytes ++ toBytesBE versionVal) _ p 8 rfl hp8 h8
    have h8n : ¬ p.length < 8 := by omega
    have htake : p.take 4 = magicBytes := by
      rw [hpeq, List.append_assoc]
      exact List.take_left' rfl
    have hdrop4 : p.drop 4 = toBytesBE versionVal ++ q := by
      rw [hpeq, List.append_assoc]
      exact List.drop_left' rfl
    have hdrop8 : p.drop 8 = q := by
      rw [hpeq]
      exact List.drop_left' rfl
    have hver : readU32 (p.drop 4) = some (versionVal, q) := by
      rw [hdrop4]
      exact readU32_toBytesBE _ _ (by decide)
    by_cases h12 : q.length < 4
    · refine ⟨.shortEntryCount, loadDB_shortCount p q h8n htake hver ?_, rfl⟩
      rw [hdrop8]
      exact readU32_none q h12
    · push_neg at h12
      obtain ⟨r, hqeq, hr, hrlen⟩ := prefix_split (toBytesBE db.length) _ q 4 rfl hq h12
      have hc : readU32 (p.drop 8) = some (db.length, r) := by
        rw [hdrop8, hqeq]
        exact readU32_toBytesBE _ _ hcnt
      rw [loadDB_entries p q db.length r h8n htake hver hc]
      apply parseEntries_truncated db [] r hlens hr
      rw [hwlen] at hlt
      omega

/-- C7 witness: a concrete strict prefix of a valid container fails with
a truncation error. -/
theorem claim7_witness :
    ∃ err, loadDB ((writeSecretsFile [([65], [66])]).take 5) = .error err ∧
      isTruncErr err = true :=
  claim7_truncation [([65], [66])] _ (by decide) (by decide)
    (List.take_prefix _ _) (by decide)

/-- C8 (confirmed): on input holding at least the 8-byte header, decode
fails with the invalid-format error when the first 4 bytes are not
`"SCFG"`, and fails with the unsupported-version error when the magic
matches but the big-endian version word at offset 4 differs from 1. -/
theorem claim8_magic_and_version (data : List Nat) (h8 : 8 ≤ data.length) :
    (data.take 4 ≠ magicBytes → loadDB data = .error .invalidFormat) ∧
    (∀ v rest, data.take 4 = magicBytes → readU32 (data.drop 4) = some (v, rest) →
      v ≠ 1 → loadDB data = .error .unsupportedVersion) := by
  constructor
  · intro hm
    exact loadDB_badMagic data (by omega) hm
  · intro v rest hm hv hne
    exact loadDB_badVersion data v rest (by omega) hm hv hne

/-- C8 witness: wrong magic on one concrete input, unsupported version
on another. -/
theorem claim8_witness :
    loadDB [0, 0, 0, 0, 0, 0, 0, 0] = .error .invalidFormat ∧
    loadDB [83, 67, 70, 71, 0, 0, 0, 2] = .error .unsupportedVersion :=
  ⟨(claim8_magic_and_version [0, 0, 0, 0, 0, 0, 0, 0] (by decide)).1 (by decide),
   (claim8_magic_and_version [83, 67, 70, 71, 0, 0, 0, 2] (by decide)).2 2 []
     (by decide) (by decide) (by decide)⟩

/-- C9 (corrected), counterexample: after storing the same key twice,
delete removes only the first matching sealed entry, and `get` on the
deleted key still succeeds instead of failing with not-found. -/
theorem claim9_counterexample :
    Delete [1]
      (Store [1]
        (Store [1] [] [100] [65] [0, 0, 0, 0, 0, 0, 0, 0, 0, 0, 0, 1]
          [0, 0, 0, 0, 0, 0, 0, 0, 0, 0, 0, 2])
        [100] [66] [0, 0, 0, 0, 0, 0, 0, 0, 0, 0, 0, 3]
        [0, 0, 0, 0, 0, 0, 0, 0, 0, 0, 0, 4]) [100] =
      .ok (Store [1] [] [100] [66] [0, 0, 0, 0, 0, 0, 0, 0, 0, 0, 0, 3]
        [0, 0, 0, 0, 0, 0, 0, 0, 0, 0, 0, 4]) ∧
    Retrieve [1]
      (Store [1] [] [100] [66] [0, 0, 0, 0, 0, 0, 0, 0, 0, 0, 0, 3]
        [0, 0, 0, 0, 0, 0, 0, 0, 0, 0, 0, 4]) [100] = .ok [66] ∧
    [100] ∈ ListKeys [1]
      (Store [1] [] [100] [66] [0, 0, 0, 0, 0, 0, 0, 0, 0, 0, 0, 3]
        [0, 0, 0, 0, 0, 0, 0, 0, 0, 0, 0, 4]) :=
  ⟨rfl, rfl, by decide⟩

/-- C9 (amended): when exactly one entry of the table matches the key
(its sealed key decodes and decrypts to `k`), `delete(k)` removes that
entry, after which `get(k)` fails with the not-found error and
`list()` no longer contains `k`; and `delete(k)` when no entry matches
fails with the not-found error.  When several entries match (the key
was stored more than once), delete removes only the first. -/
theorem claim9_delete_semantics (ck k : List Nat) :
    (∀ pre e post, (∀ x ∈ pre, deleteMatches ck k x = false) →
      deleteMatches ck k e = true →
      (∀ x ∈ post, deleteMatches ck k x = false) →
      Delete ck (pre ++ e :: post) k = .ok (pre ++ post) ∧
      Retrieve ck (pre ++ post) k = .error .keyNotFound ∧
      k ∉ ListKeys ck (pre ++ post)) ∧
    (∀ db, (∀ x ∈ db, deleteMatches ck k x = false) →
      Delete ck db k = .error .keyNotFound) := by
  constructor
  · intro pre e post hpre he hpost
    have hall : ∀ x ∈ pre ++ post, deleteMatches ck k x = false := by
      intro x hx
      rcases List.mem_append.mp hx with hx | hx
      · exact hpre x hx
      · exact hpost x hx
    refine ⟨Delete_first ck k pre e post hpre he, ?_, ListKeys_not_mem ck k _ hall⟩
    have hskip : ∀ x ∈ pre ++ post, retrieveStep ck k x = none :=
      fun x hx => deleteMatches_false_step ck k x (hall x hx)
    have h2 := Retrieve_append_none ck k (pre ++ post) [] hskip
    rwa [List.append_nil] at h2
  · exact fun db h => Delete_none ck k db h

/-- C9 witness: a concrete table with the reserved record and one
matching entry — delete removes it, get then fails not-found, list
omits the key, and delete on an empty table fails not-found. -/
theorem claim9_witness :
    Delete [1] ([([107], [5])] ++
        ((base64Encode (Encrypt [1] [0, 0, 0, 0, 0, 0, 0, 0, 0, 0, 0, 5] [100]),
          base64Encode (Encrypt [1] [0, 0, 0, 0, 0, 0, 0, 0, 0, 0, 0, 6] [65])) ::
          [])) [100] = .ok ([([107], [5])] ++ []) ∧
    Retrieve [1] ([([107], [5])] ++ []) [100] = .error .keyNotFound ∧
    [100] ∉ ListKeys [1] ([([107], [5])] ++ []) ∧
    Delete [1] [] [100] = .error .keyNotFound := by
  have h := (claim9_delete_semantics [1] [100]).1 [([107], [5])]
    (base64Encode (Encrypt [1] [0, 0, 0, 0, 0, 0, 0, 0, 0, 0, 0, 5] [100]),
      base64Encode (Encrypt [1] [0, 0, 0, 0, 0, 0, 0, 0, 0, 0, 0, 6] [65])) []
    (by decide) (by decide) (by simp)
  exact ⟨h.1, h.2.1, h.2.2, (claim9_delete_semantics [1] [100]).2 [] (by simp)⟩

/-- C10 (confirmed): decoding accepts arbitrary trailing bytes after the
declared entries: the extra bytes are ignored and decoding succeeds
with exactly the declared entries and no error. -/
theorem claim10_trailing_bytes (db : List (List Nat × List Nat)) (junk : List Nat)
    (hcnt : db.length < 4294967296)
    (hlens : ∀ e ∈ db, e.1.length < 4294967296 ∧ e.2.length < 4294967296)
    (hpw : db.Pairwise (fun a b => a.1 ≠ b.1)) :
    loadDB (writeSecretsFile db ++ junk) = .ok db :=
  loadDB_write_append db junk hcnt hlens hpw

/-- C10 witness: a concrete container followed by trailing junk decodes
to exactly its declared entry. -/
theorem claim10_witness :
    loadDB (writeSecretsFile [([65], [66])] ++ [9, 9, 9]) = .ok [([65], [66])] :=
  claim10_trailing_bytes [([65], [66])] [9, 9, 9] (by decide) (by decide) (by simp)

end SecureConfig
